import Mathlib

/-!
# Verification of the `sortutil` positional-transform and decorator library

This file embeds the Go package `sortutil` (seq.go, wrappers.go) in Lean and
proves the specified properties of its operations.

The transforms `Reverse`, `Rotate`, `Skew` and `Shuffle` read and mutate the
underlying data only through `Len` and `Swap` of `sort.Interface`, so a
sequence is embedded as a `List α` and each transform as a function
`List α → … → Option (List α)`; `none` models a Go runtime panic
(index out of range, or integer division by zero).  Indices are embedded as
`Int`, matching Go's `int`, and Go's truncated `%` and `/` are `Int.tmod`
and `Int.tdiv`.

The view decorators of wrappers.go (`sub`, `rev`, `proxy`) are embedded over
an abstract base sequence: a state type `σ` together with the three
capability operations (`SeqOps`), with the wrapper values themselves as an
inductive type `SI` so that the constructors' dynamic type tests
(`s.(sub)`, `s.(rev)`) become constructor matches.
-/

namespace Sortutil

universe u

/-- Go slice-element swap `b[i], b[j] = b[j], b[i]`, as performed by the
`Swap` method of a slice-backed `sort.Interface` (`ByteSlice.Swap`,
`Letters.Swap`, `sort.IntSlice.Swap`).  Go panics when an index is negative
or not below the length; the embedding returns `none` in that case. -/
def swapL {α : Type} (l : List α) (i j : Int) : Option (List α) :=
  if 0 ≤ i ∧ 0 ≤ j then
    match l.get? i.toNat, l.get? j.toNat with
    | some a, some b => some ((l.set i.toNat b).set j.toNat a)
    | _, _ => none
  else none

/-- The direct-slide loop at the end of `Skew` (seq.go):
`for ; i < j; i++ { data.Swap(i, i+k) }`. -/
def skewLoop {α : Type} (data : List α) (i j k : Int) : Option (List α) :=
  if i < j then
    match swapL data i (i + k) with
    | some d => skewLoop d (i + 1) j k
    | none => none
  else some data
termination_by (j - i).toNat
decreasing_by omega

/-- `Skew` from seq.go: slides the group of `k` consecutive elements whose
minimum index is `i` so that its minimum index becomes `j`, using only
pairwise swaps.  Go's `/` and `%` truncate toward zero, hence `Int.tdiv`
and `Int.tmod`.  The Go reassignment `i, j, k = j, j+k, i-j` in the
`j < i` branch is rendered as a self-call with exactly those arguments:
the call re-enters the function, passes the unchanged guards, and falls
through to the same remaining body.  For `k < 0` the Go function fails to
terminate on some inputs (for example `i, j, k = 0, 5, -3` reaches a call
that recurses into itself forever), so the embedding maps every `k < 0`
call to `none`; no claim and no internal recursive call has `k < 0`. -/
def Skew {α : Type} (data : List α) (i j k : Int) : Option (List α) :=
  if k = 0 ∨ i = j then some data
  else if k < 0 then none
  else if j < i then Skew data j (j + k) (i - j)
  else if j - i < k then
    match Skew data (i + Int.tdiv k 2) (j + Int.tdiv k 2) (k - Int.tdiv k 2) with
    | some d => Skew d i j (Int.tdiv k 2)
    | none => none
  else if Int.tmod (j - i) k ≠ 0 then
    match Skew data i (j - Int.tmod (j - i) k) k with
    | some d => Skew d (j - Int.tmod (j - i) k) j k
    | none => none
  else
    skewLoop data i j k
termination_by 2 * ((i - j).natAbs + k.toNat) + (if j < i then 1 else 0)
decreasing_by
· split_ifs <;> omega
· have h2 : Int.tdiv k 2 = k / 2 := Int.tdiv_eq_ediv (by omega) (by omega)
  split_ifs <;> omega
· have h2 : Int.tdiv k 2 = k / 2 := Int.tdiv_eq_ediv (by omega) (by omega)
  split_ifs <;> omega
· have h1 : 0 ≤ Int.tmod (j - i) k := Int.tmod_nonneg k (by omega)
  have h2 : Int.tmod (j - i) k < k := Int.tmod_lt_of_pos _ (by omega)
  split_ifs <;> omega
· have h1 : 0 ≤ Int.tmod (j - i) k := Int.tmod_nonneg k (by omega)
  have h2 : Int.tmod (j - i) k < k := Int.tmod_lt_of_pos _ (by omega)
  split_ifs <;> omega

/-- `Rotate` from seq.go: cycles data by `d` moves to the right, by
normalizing `d` with `d = (k + d) % k` (Go's truncated `%`) and delegating
to `Skew data 0 d (k - d)`.  When the length `k` is `0`, Go's `%` panics
with a division by zero; the embedding returns `none`. -/
def Rotate {α : Type} (data : List α) (d : Int) : Option (List α) :=
  if (data.length : Int) = 0 then none
  else
    Skew data 0 (Int.tmod ((data.length : Int) + d) (data.length : Int))
      ((data.length : Int) - Int.tmod ((data.length : Int) + d) (data.length : Int))

/-- The loop of `Reverse` (seq.go):
`for i := 0; i < n/2; i++ { data.Swap(i, n-i-1) }`. -/
def revLoop {α : Type} (data : List α) (n i : Nat) : Option (List α) :=
  if i < n / 2 then
    match swapL data i ((n : Int) - i - 1) with
    | some d => revLoop d n (i + 1)
    | none => none
  else some data
termination_by n / 2 - i

/-- `Reverse` from seq.go: inverts the current order of the data. -/
def Reverse {α : Type} (data : List α) : Option (List α) :=
  revLoop data data.length 0

/-- The loop of `Shuffle` (seq.go):
`for i, j := range rand.Perm(n) { data.Swap(i, j) }`, where the slice
returned by `rand.Perm(n)` is supplied as the explicit list `p`. -/
def shuffleGo {α : Type} (data : List α) (i : Nat) (p : List Int) : Option (List α) :=
  match p with
  | [] => some data
  | j :: rest =>
    match swapL data i j with
    | some d => shuffleGo d (i + 1) rest
    | none => none

/-- `Shuffle` from seq.go, with the random permutation produced by
`rand.Perm(data.Len())` modelled as the explicit input `p`. -/
def Shuffle {α : Type} (data : List α) (p : List Int) : Option (List α) :=
  shuffleGo data 0 p

/-- Modelled from the spec's correctness invariant for `Skew`: the map
sending each destination position to the source position whose element
must end up there.  The `k`-element block originally occupying `[i, i+k)`
occupies `[j, j+k)`; all elements originally between the two positions
shift by `k` to fill the vacated space (downward when `i ≤ j`, upward
when `j < i`); every position outside the affected range keeps its
element. -/
def skewSpecIndex (i j k m : Nat) : Nat :=
  if j ≤ m ∧ m < j + k then i + (m - j)
  else if i ≤ j then
    if i ≤ m ∧ m < j then m + k else m
  else
    if j + k ≤ m ∧ m < i + k then m - k else m

/-- Proof-internal index map: the pointwise effect of `skewLoop` running
from `t` to `j` with stride `k` (no divisibility assumption; when
`k ∣ j - t` the second branch simplifies to the block-move map). -/
def loopIdx (t j k m : Nat) : Nat :=
  if t ≤ m ∧ m < j then m + k
  else if j ≤ m ∧ m < j + k then t + (m - t) % k
  else m

/-- Proof-internal index map: the block-move source map for the
direction-normalized case `i ≤ j` (the `j < i` case of `skewSpecIndex`
is this map at `(j, j+k, i-j)`). -/
def skewIdx (i j k m : Nat) : Nat :=
  if j ≤ m ∧ m < j + k then i + (m - j)
  else if i ≤ m ∧ m < j then m + k
  else m

/-- The three operations of Go's `sort.Interface` over an abstract
sequence state `σ`: `Len`, `Less` and `Swap`.  A Go value implementing the
interface mutates in place; the embedding passes the state explicitly. -/
structure SeqOps (σ : Type u) where
  len : σ → Int
  less : σ → Int → Int → Bool
  swap : σ → Int → Int → σ

/-- The `sort.Interface` values built by wrappers.go: a base sequence, the
unexported `sub` wrapper of `NewSub` (fields `s`, `i`, `n`), and the
unexported `rev` wrapper of `NewRev` (an embedded `sort.Interface`).
Keeping the wrappers as constructors makes Go's dynamic type tests
`s.(sub)` and `s.(rev)` constructor matches. -/
inductive SI (σ : Type u) : Type u where
  | base (s : σ) : SI σ
  | sub (v : SI σ) (off cnt : Int) : SI σ
  | rev (v : SI σ) : SI σ

/-- `Len` of an `SI` value: `sub.Len` returns the stored count `s.n`;
`rev` has no `Len` method of its own, so the embedded value's `Len` is
promoted. -/
def SI.LenI {σ : Type u} (ops : SeqOps σ) : SI σ → Int
  | .base s => ops.len s
  | .sub _ _ cnt => cnt
  | .rev v => v.LenI ops

/-- `Less` of an `SI` value: `sub.Less(i, j)` delegates to the base at
`(s.i+i, s.i+j)`; `rev.Less(i, j)` returns `!r.Interface.Less(i, j)`. -/
def SI.LessI {σ : Type u} (ops : SeqOps σ) : SI σ → Int → Int → Bool
  | .base s, i, j => ops.less s i j
  | .sub v off _, i, j => v.LessI ops (off + i) (off + j)
  | .rev v, i, j => !(v.LessI ops i j)

/-- `Swap` of an `SI` value: `sub.Swap(i, j)` delegates to the base at
`(s.i+i, s.i+j)`; `rev` promotes the embedded value's `Swap` unchanged.
The wrapper shape is preserved and only the wrapped state changes. -/
def SI.SwapI {σ : Type u} (ops : SeqOps σ) : SI σ → Int → Int → SI σ
  | .base s, i, j => .base (ops.swap s i j)
  | .sub v off cnt, i, j => .sub (v.SwapI ops (off + i) (off + j)) off cnt
  | .rev v, i, j => .rev (v.SwapI ops i j)

/-- `NewSub` from wrappers.go: wraps a sub-sequence `s[i:j]`.  Panics
(`none`) when `i < 0 || j < i || j > s.Len()`; collapses subs of subs
(`sub{v.s, v.i + i, j - i}`); otherwise wraps as `sub{s, i, j - i}`. -/
def NewSub {σ : Type u} (ops : SeqOps σ) (s : SI σ) (i j : Int) : Option (SI σ) :=
  if i < 0 ∨ j < i ∨ j > s.LenI ops then none
  else
    match s with
    | .sub v vi _ => some (.sub v (vi + i) (j - i))
    | _ => some (.sub s i (j - i))

/-- `NewRev` from wrappers.go: returns a reverse sorter; unwraps a `rev`
of a `rev` to the original value. -/
def NewRev {σ : Type u} (s : SI σ) : SI σ :=
  match s with
  | .rev v => v
  | _ => .rev s

/-- Number of directly nested `sub` wrappers at the top of an `SI`
value. -/
def SI.subDepth {σ : Type u} : SI σ → Nat
  | .sub v _ _ => v.subDepth + 1
  | _ => 0

/-- The unexported `proxy` struct of wrappers.go: a comparison-driving
primary `c` and the ordered list `d` of mirrored secondaries. -/
structure Proxy (σ : Type u) where
  c : σ
  d : List σ

/-- `NewProxy` from wrappers.go: checks `comp.Len() == d.Len()` for every
`d` in `data` and panics (`none`) on any mismatch, otherwise returns
`proxy{comp, data}` unchanged. -/
def NewProxy {σ : Type u} (ops : SeqOps σ) (comp : σ) (data : List σ) : Option (Proxy σ) :=
  if data.all (fun d => ops.len comp == ops.len d) then some ⟨comp, data⟩ else none

/-- `proxy.Len` from wrappers.go: delegates to the primary. -/
def Proxy.LenP {σ : Type u} (ops : SeqOps σ) (p : Proxy σ) : Int :=
  ops.len p.c

/-- `proxy.Less` from wrappers.go: delegates to the primary. -/
def Proxy.LessP {σ : Type u} (ops : SeqOps σ) (p : Proxy σ) (i j : Int) : Bool :=
  ops.less p.c i j

/-- `proxy.Swap` from wrappers.go:
`p.c.Swap(i, j); for _, d := range p.d { d.Swap(i, j) }`, rendered with
the underlying `Swap` abstracted as an effect `sw` on a world `τ` (the
world threads the side effects of the successive `Swap` calls, so the
execution order of the calls is observable).  Instantiating `sw` with an
event-recording effect yields the call trace; instantiating it with a
state update yields the resulting states. -/
def Proxy.SwapGen {σ τ : Type u} (sw : τ → σ → Int → Int → τ) (p : Proxy σ)
    (i j : Int) (w : τ) : τ :=
  p.d.foldl (fun acc x => sw acc x i j) (sw w p.c i j)

/-- The event-recording instantiation of `Proxy.SwapGen`: each `Swap`
call on a wrapped sequence appends the event (sequence, i, j) to a shared
log, the instrumentation the spec describes on the wrapped sequences. -/
def Proxy.SwapTrace {σ : Type u} (p : Proxy σ) (i j : Int)
    (w : List (σ × Int × Int)) : List (σ × Int × Int) :=
  Proxy.SwapGen (fun acc x a b => acc ++ [(x, a, b)]) p i j w

/-- A concrete capability instance over `Unit` (constant length 10),
used only to instantiate the decorator theorems at concrete inputs. -/
def demoOps : SeqOps Unit :=
  ⟨fun _ => 10, fun _ _ _ => false, fun s _ _ => s⟩

/-- A concrete capability instance over `Int` whose length is the state
itself, used only to instantiate the mirrored-view length check at
concrete inputs. -/
def idLenOps : SeqOps Int :=
  ⟨fun s => s, fun _ _ _ => false, fun s _ _ => s⟩

end Sortutil

namespace Sortutil

theorem get?_set_iff {α : Type} (l : List α) (n : Nat) (a : α) (m : Nat) :
    (l.set n a).get? m = if m = n ∧ n < l.length then some a else l.get? m := by
  rw [List.get?_set]
  by_cases h1 : n = m
  · subst h1
    by_cases h2 : n < l.length
    · rw [if_pos rfl, if_pos ⟨rfl, h2⟩, List.get?_eq_get h2]
      rfl
    · rw [if_pos rfl, if_neg (by tauto), List.get?_len_le (by omega)]
      rfl
  · rw [if_neg h1, if_neg (by tauto)]

theorem swapL_nat_eq {α : Type} {l : List α} {i j : Nat} (hi : i < l.length)
    (hj : j < l.length) :
    swapL l ↑i ↑j = some ((l.set i (l.get ⟨j, hj⟩)).set j (l.get ⟨i, hi⟩)) := by
  unfold swapL
  rw [if_pos ⟨Int.natCast_nonneg i, Int.natCast_nonneg j⟩]
  simp only [Int.toNat_natCast, List.get?_eq_get hi, List.get?_eq_get hj]

theorem get?_swap_sets {α : Type} {l : List α} {i j : Nat} (hi : i < l.length)
    (hj : j < l.length) (m : Nat) :
    ((l.set i (l.get ⟨j, hj⟩)).set j (l.get ⟨i, hi⟩)).get? m
      = l.get? (if m = j then i else if m = i then j else m) := by
  rw [get?_set_iff, get?_set_iff, List.length_set]
  by_cases h1 : m = j
  · rw [if_pos ⟨h1, hj⟩, if_pos h1, List.get?_eq_get hi]
  · rw [if_neg (by tauto), if_neg h1]
    by_cases h2 : m = i
    · rw [if_pos ⟨h2, hi⟩, if_pos h2, List.get?_eq_get hj]
    · rw [if_neg (by tauto), if_neg h2]

theorem perm_cons_set {α : Type} :
    ∀ (t : List α) (m : Nat) (x b : α), t.get? m = some b →
      (b :: t.set m x).Perm (x :: t) := by
  intro t
  induction t with
  | nil => intro m x b h; simp at h
  | cons y t' ih =>
    intro m x b h
    match m with
    | 0 =>
      simp only [List.get?] at h
      cases h
      exact List.Perm.swap x y t'
    | Nat.succ m' =>
      simp only [List.get?] at h
      have h1 : (b :: y :: t'.set m' x).Perm (y :: b :: t'.set m' x) :=
        List.Perm.swap y b (t'.set m' x)
      have h2 : (y :: b :: t'.set m' x).Perm (y :: x :: t') :=
        List.Perm.cons y (ih m' x b h)
      have h3 : (y :: x :: t').Perm (x :: y :: t') := List.Perm.swap x y t'
      exact (h1.trans h2).trans h3

theorem perm_swap_sets {α : Type} :
    ∀ (l : List α) (i j : Nat) (a b : α), l.get? i = some a → l.get? j = some b →
      ((l.set i b).set j a).Perm l := by
  intro l
  induction l with
  | nil => intro i j a b h; simp at h
  | cons x t ih =>
    intro i j a b hi hj
    cases i with
    | zero =>
      cases j with
      | zero =>
        simp only [List.get?] at hi hj
        cases hi; cases hj
        simp
      | succ j' =>
        simp only [List.get?] at hi hj
        cases hi
        exact perm_cons_set t j' x b hj
    | succ i' =>
      cases j with
      | zero =>
        simp only [List.get?] at hi hj
        cases hj
        exact perm_cons_set t i' x a hi
      | succ j' =>
        simp only [List.get?] at hi hj
        simp only [List.set]
        exact List.Perm.cons x (ih i' j' a b hi hj)

theorem swapL_inv {α : Type} {l l' : List α} {i j : Int} (h : swapL l i j = some l') :
    ∃ a b, l.get? i.toNat = some a ∧ l.get? j.toNat = some b ∧
      l' = (l.set i.toNat b).set j.toNat a ∧ 0 ≤ i ∧ 0 ≤ j := by
  unfold swapL at h
  split at h
  case isTrue hc =>
    rcases hgi : l.get? i.toNat with _ | a
    all_goals rcases hgj : l.get? j.toNat with _ | b
    all_goals rw [hgi, hgj] at h
    · exact absurd h (by simp)
    · exact absurd h (by simp)
    · exact absurd h (by simp)
    · exact ⟨a, b, rfl, rfl, by cases h; rfl, hc.1, hc.2⟩
  case isFalse => exact absurd h (by simp)

theorem swapL_perm {α : Type} {l l' : List α} {i j : Int}
    (h : swapL l i j = some l') : l'.Perm l := by
  obtain ⟨a, b, hgi, hgj, hl', -, -⟩ := swapL_inv h
  rw [hl']
  exact perm_swap_sets l i.toNat j.toNat a b hgi hgj

theorem swapL_length {α : Type} {l l' : List α} {i j : Int}
    (h : swapL l i j = some l') : l'.length = l.length :=
  (swapL_perm h).length_eq

theorem swapL_get? {α : Type} {l l' : List α} {i j : Int}
    (h : swapL l i j = some l') :
    ∀ m : Nat, l'.get? m
      = l.get? (if m = j.toNat then i.toNat else if m = i.toNat then j.toNat else m) := by
  obtain ⟨a, b, hgi, hgj, hl', -, -⟩ := swapL_inv h
  obtain ⟨hi, hia⟩ := List.get?_eq_some.mp hgi
  obtain ⟨hj, hjb⟩ := List.get?_eq_some.mp hgj
  intro m
  rw [hl']
  have hb : b = l.get ⟨j.toNat, hj⟩ := hjb.symm
  have ha : a = l.get ⟨i.toNat, hi⟩ := hia.symm
  rw [hb, ha]
  exact get?_swap_sets hi hj m

theorem loopIdx_step {t j k : Nat} (hk : 0 < k) (ht : t < j) (m : Nat) :
    (if loopIdx (t + 1) j k m = t + k then t
      else if loopIdx (t + 1) j k m = t then t + k
      else loopIdx (t + 1) j k m) = loopIdx t j k m := by
  unfold loopIdx
  by_cases c1 : t + 1 ≤ m ∧ m < j
  · rw [if_pos c1, if_neg (by omega), if_neg (by omega), if_pos (by omega : t ≤ m ∧ m < j)]
  · rw [if_neg c1]
    by_cases c2 : j ≤ m ∧ m < j + k
    · rw [if_pos c2, if_neg (by omega : ¬(t ≤ m ∧ m < j)), if_pos c2]
      have hr : (m - t) % k = ((m - (t + 1)) % k + 1) % k := by
        rw [Nat.mod_add_mod]
        congr 1
        omega
      have hrk : (m - (t + 1)) % k < k := Nat.mod_lt _ hk
      by_cases hcr : (m - (t + 1)) % k = k - 1
      · rw [if_pos (by omega : t + 1 + (m - (t + 1)) % k = t + k), hr, hcr,
          show k - 1 + 1 = k from by omega, Nat.mod_self]
        omega
      · have hlt : (m - (t + 1)) % k + 1 < k := by omega
        rw [if_neg (by omega), if_neg (by omega), hr, Nat.mod_eq_of_lt hlt]
        omega
    · rw [if_neg c2]
      by_cases cm : m = t
      · subst cm
        rw [if_neg (show ¬m = m + k by omega), if_pos rfl,
          if_pos (show m ≤ m ∧ m < j by omega)]
      · rw [if_neg (show ¬m = t + k by omega), if_neg cm,
          if_neg (show ¬(t ≤ m ∧ m < j) by omega), if_neg c2]

theorem skewLoop_spec {α : Type} :
    ∀ (gap t k : Nat) (l : List α), 0 < k → t + gap + k ≤ l.length →
      ∃ l', skewLoop l ↑t ↑(t + gap) ↑k = some l' ∧ l'.length = l.length ∧
        ∀ m : Nat, l'.get? m = l.get? (loopIdx t (t + gap) k m) := by
  intro gap
  induction gap with
  | zero =>
    intro t k l hk hlen
    refine ⟨l, ?_, rfl, ?_⟩
    · rw [skewLoop, if_neg (by omega)]
    · intro m
      unfold loopIdx
      split_ifs with h1 h2
      · omega
      · rw [Nat.mod_eq_of_lt (by omega)]
        congr 1
        omega
      · rfl
  | succ g ih =>
    intro t k l hk hlen
    rw [show t + (g + 1) = (t + 1) + g from by omega]
    have hi : t < l.length := by omega
    have hj : t + k < l.length := by omega
    have hswap : swapL l ↑t (↑t + ↑k)
        = some ((l.set t (l.get ⟨t + k, hj⟩)).set (t + k) (l.get ⟨t, hi⟩)) := by
      have h0 := @swapL_nat_eq _ l t (t + k) hi hj
      rw [Nat.cast_add] at h0
      exact h0
    have hlen1 : ((l.set t (l.get ⟨t + k, hj⟩)).set (t + k) (l.get ⟨t, hi⟩)).length
        = l.length := by
      simp [List.length_set]
    obtain ⟨l', hrun, hl'len, hpt⟩ :=
      ih (t + 1) k ((l.set t (l.get ⟨t + k, hj⟩)).set (t + k) (l.get ⟨t, hi⟩)) hk
        (by omega)
    refine ⟨l', ?_, by rw [hl'len, hlen1], ?_⟩
    · rw [skewLoop, if_pos (by omega : (↑t : Int) < ↑((t + 1) + g)), hswap,
        show ((↑t : Int) + 1) = ↑(t + 1) from by push_cast; ring]
      exact hrun
    · intro m
      rw [hpt m, get?_swap_sets hi hj, loopIdx_step hk (by omega)]

end Sortutil

namespace Sortutil

theorem skewIdx_comp_split (i j p q k m : Nat) (hij : i ≤ j) (hlt : j < i + k)
    (hpq : p + q = k) (hp : 1 ≤ p) (hq : 1 ≤ q) :
    skewIdx (i + p) (j + p) q (skewIdx i j p m) = skewIdx i j k m := by
  unfold skewIdx
  split_ifs <;> omega

theorem skewIdx_comp_chain (i a j k m : Nat) (h1 : i ≤ a) (h2 : a ≤ j) :
    skewIdx i a k (skewIdx a j k m) = skewIdx i j k m := by
  unfold skewIdx
  split_ifs <;> omega

theorem loopIdx_eq_skewIdx {i j k : Nat} (hij : i ≤ j) (hk : 0 < k)
    (hdvd : (j - i) % k = 0) (m : Nat) : loopIdx i j k m = skewIdx i j k m := by
  unfold loopIdx skewIdx
  by_cases ca : i ≤ m ∧ m < j
  · rw [if_pos ca, if_neg (by omega), if_pos ca]
  · rw [if_neg ca]
    by_cases cb : j ≤ m ∧ m < j + k
    · rw [if_pos cb, if_pos cb]
      obtain ⟨c, hc⟩ : k ∣ (j - i) := Nat.dvd_of_mod_eq_zero hdvd
      have key : m - i = (m - j) + k * c := by omega
      rw [key, Nat.add_mul_mod_self_left, Nat.mod_eq_of_lt (by omega)]
    · rw [if_neg cb, if_neg cb, if_neg ca]

theorem skew_core {α : Type} :
    ∀ (N i j k : Nat) (l : List α), i ≤ j → j + k ≤ l.length → (j - i) + k ≤ N →
      ∃ l', Skew l ↑i ↑j ↑k = some l' ∧ l'.length = l.length ∧
        ∀ m : Nat, l'.get? m = l.get? (skewIdx i j k m) := by
  intro N
  induction N with
  | zero =>
    intro i j k l hij hlen hN
    refine ⟨l, ?_, rfl, ?_⟩
    · rw [Skew, if_pos (Or.inl (by omega : (k : Int) = 0))]
    · intro m
      have he : skewIdx i j k m = m := by
        unfold skewIdx
        split_ifs <;> omega
      rw [he]
  | succ n ih =>
    intro i j k l hij hlen hN
    by_cases hk0 : k = 0
    · refine ⟨l, ?_, rfl, ?_⟩
      · rw [Skew, if_pos (Or.inl (by omega : (k : Int) = 0))]
      · intro m
        have he : skewIdx i j k m = m := by
          unfold skewIdx
          split_ifs <;> omega
        rw [he]
    · by_cases hij' : i = j
      · refine ⟨l, ?_, rfl, ?_⟩
        · rw [Skew, if_pos (Or.inr (by omega : (i : Int) = (j : Int)))]
        · intro m
          have he : skewIdx i j k m = m := by
            unfold skewIdx
            split_ifs <;> omega
          rw [he]
      · have hiltj : i < j := by omega
        have hkpos : 0 < k := by omega
        rw [Skew, if_neg (by omega : ¬((k : Int) = 0 ∨ (i : Int) = (j : Int))),
          if_neg (by omega : ¬((k : Int) < 0)), if_neg (by omega : ¬((j : Int) < (i : Int)))]
        have etd : Int.tdiv (k : Int) 2 = ((k / 2 : Nat) : Int) := rfl
        by_cases hb1 : (j : Int) - (i : Int) < (k : Int)
        · rw [if_pos hb1]
          have hgap : j - i < k := by omega
          have hk2 : 2 ≤ k := by omega
          have hp1 : 1 ≤ k / 2 := by omega
          have hq1 : 1 ≤ k - k / 2 := by omega
          have e1 : (i : Int) + Int.tdiv (k : Int) 2 = ((i + k / 2 : Nat) : Int) := by
            rw [etd]; push_cast; ring
          have e2 : (j : Int) + Int.tdiv (k : Int) 2 = ((j + k / 2 : Nat) : Int) := by
            rw [etd]; push_cast; ring
          have e3 : (k : Int) - Int.tdiv (k : Int) 2 = ((k - k / 2 : Nat) : Int) := by
            rw [etd]; omega
          obtain ⟨l1, hrun1, hlen1, hpt1⟩ :=
            ih (i + k / 2) (j + k / 2) (k - k / 2) l (by omega) (by omega) (by omega)
          obtain ⟨l2, hrun2, hlen2, hpt2⟩ :=
            ih i j (k / 2) l1 (by omega) (by omega : j + k / 2 ≤ l1.length) (by omega)
          refine ⟨l2, ?_, by rw [hlen2, hlen1], ?_⟩
          · rw [e1, e2, e3, hrun1, etd]
            exact hrun2
          · intro m
            rw [hpt2 m, hpt1 (skewIdx i j (k / 2) m),
              skewIdx_comp_split i j (k / 2) (k - k / 2) k m hij (by omega) (by omega) hp1 hq1]
        · rw [if_neg hb1]
          have hkle : k ≤ j - i := by omega
          have eji : (j : Int) - (i : Int) = ((j - i : Nat) : Int) := by omega
          have etm : Int.tmod ((j : Int) - (i : Int)) (k : Int)
              = (((j - i) % k : Nat) : Int) := by rw [eji]; rfl
          by_cases hb2 : Int.tmod ((j : Int) - (i : Int)) (k : Int) ≠ 0
          · rw [if_pos hb2]
            have hpN : (j - i) % k ≠ 0 := by
              intro h0
              rw [etm, h0] at hb2
              exact hb2 rfl
            have hpNlt : (j - i) % k < k := Nat.mod_lt _ hkpos
            have hpN1 : 1 ≤ (j - i) % k := by omega
            have e4 : (j : Int) - Int.tmod ((j : Int) - (i : Int)) (k : Int)
                = ((j - (j - i) % k : Nat) : Int) := by rw [etm]; omega
            obtain ⟨l1, hrun1, hlen1, hpt1⟩ :=
              ih i (j - (j - i) % k) k l (by omega) (by omega) (by omega)
            obtain ⟨l2, hrun2, hlen2, hpt2⟩ :=
              ih (j - (j - i) % k) j k l1 (by omega)
                (by omega : j + k ≤ l1.length) (by omega)
            refine ⟨l2, ?_, by rw [hlen2, hlen1], ?_⟩
            · rw [e4, hrun1]
              exact hrun2
            · intro m
              rw [hpt2 m, hpt1 (skewIdx (j - (j - i) % k) j k m),
                skewIdx_comp_chain i (j - (j - i) % k) j k m (by omega) (by omega)]
          · rw [if_neg hb2]
            have hdvd : (j - i) % k = 0 := by
              by_contra h0
              apply hb2
              rw [etm]
              exact_mod_cast h0
            obtain ⟨l', hrun, hlen', hpt⟩ :=
              skewLoop_spec (j - i) i k l hkpos (by omega)
            refine ⟨l', ?_, hlen', ?_⟩
            · rw [show i + (j - i) = j from by omega] at hrun
              exact hrun
            · intro m
              rw [hpt m, show i + (j - i) = j from by omega,
                loopIdx_eq_skewIdx hij hkpos hdvd m]

theorem skewSpecIndex_of_le {i j k : Nat} (hij : i ≤ j) (m : Nat) :
    skewSpecIndex i j k m = skewIdx i j k m := by
  unfold skewSpecIndex skewIdx
  rw [if_pos hij]

theorem skewSpecIndex_of_gt {i j k : Nat} (hij : j < i) (m : Nat) :
    skewSpecIndex i j k m = skewIdx j (j + k) (i - j) m := by
  unfold skewSpecIndex skewIdx
  rw [if_neg (by omega : ¬i ≤ j)]
  split_ifs <;> omega

theorem skew_spec {α : Type} (i j k : Nat) (l : List α) (hi : i + k ≤ l.length)
    (hj : j + k ≤ l.length) :
    ∃ l', Skew l ↑i ↑j ↑k = some l' ∧ l'.length = l.length ∧
      ∀ m : Nat, l'.get? m = l.get? (skewSpecIndex i j k m) := by
  by_cases hij : i ≤ j
  · obtain ⟨l', hrun, hlen, hpt⟩ := skew_core ((j - i) + k) i j k l hij hj le_rfl
    exact ⟨l', hrun, hlen, fun m => by rw [skewSpecIndex_of_le hij m]; exact hpt m⟩
  · have hji : j < i := by omega
    by_cases hk0 : k = 0
    · refine ⟨l, ?_, rfl, ?_⟩
      · rw [Skew, if_pos (Or.inl (by omega : (k : Int) = 0))]
      · intro m
        have he : skewSpecIndex i j k m = m := by
          unfold skewSpecIndex
          split_ifs <;> omega
        rw [he]
    · obtain ⟨l', hrun, hlen, hpt⟩ :=
        skew_core ((j + k - j) + (i - j)) j (j + k) (i - j) l (by omega) (by omega) le_rfl
      refine ⟨l', ?_, hlen, ?_⟩
      · rw [Skew, if_neg (by omega : ¬((k : Int) = 0 ∨ (i : Int) = (j : Int))),
          if_neg (by omega : ¬((k : Int) < 0)), if_pos (by omega : (j : Int) < (i : Int)),
          show (j : Int) + (k : Int) = ((j + k : Nat) : Int) from by push_cast; ring,
          show (i : Int) - (j : Int) = ((i - j : Nat) : Int) from by omega]
        exact hrun
      · intro m
        rw [skewSpecIndex_of_gt hji m]
        exact hpt m

/-- C1: for every sequence of length `n` and every valid triple `(i, j, k)`
with `0 ≤ i`, `0 ≤ j` and both affected ranges `[i, i+k)` and `[j, j+k)`
within `[0, n)`, `Skew data i j k` returns normally and afterwards the
`k`-element block originally occupying `[i, i+k)` occupies `[j, j+k)`, all
elements originally between the two positions have shifted to fill the
vacated space, and every element outside the moved range is untouched —
stated pointwise through the source-index map `skewSpecIndex`. -/
theorem skew_slides_block {α : Type} (i j k : Nat) (l : List α)
    (hi : i + k ≤ l.length) (hj : j + k ≤ l.length) :
    ∃ l', Skew l ↑i ↑j ↑k = some l' ∧ l'.length = l.length ∧
      ∀ m : Nat, l'.get? m = l.get? (skewSpecIndex i j k m) :=
  skew_spec i j k l hi hj

/-- Witness for C1 at the concrete input `l = [10, 20, 30, 40, 50]`,
`(i, j, k) = (1, 3, 2)`. -/
theorem skew_slides_block_witness :
    (1 : Nat) + 2 ≤ ([10, 20, 30, 40, 50] : List Nat).length ∧
    (3 : Nat) + 2 ≤ ([10, 20, 30, 40, 50] : List Nat).length ∧
    ∃ l', Skew ([10, 20, 30, 40, 50] : List Nat) ↑(1 : Nat) ↑(3 : Nat) ↑(2 : Nat) = some l' ∧
      l'.length = ([10, 20, 30, 40, 50] : List Nat).length ∧
      ∀ m : Nat, l'.get? m
        = ([10, 20, 30, 40, 50] : List Nat).get? (skewSpecIndex 1 3 2 m) :=
  ⟨by decide, by decide,
    skew_slides_block 1 3 2 [10, 20, 30, 40, 50] (by decide) (by decide)⟩

/-- C3: on the 13-element labeled sequence `abcdefghijklm`, `Skew` with
`(i, j, k) = (0, 12, 1)` yields exactly `bcdefghijklma`, and `Skew` with
`(0, 8, 5)` yields exactly `fghijklmabcde` (exact sequence equality). -/
theorem skew_letter_examples :
    Skew "abcdefghijklm".toList 0 12 1 = some "bcdefghijklma".toList ∧
    Skew "abcdefghijklm".toList 0 8 5 = some "fghijklmabcde".toList := by
  constructor
  · simp +decide [Skew, skewLoop, swapL]
  · simp +decide [Skew, skewLoop, swapL]

/-- C10: rotating a sequence whose length is `0` panics for every `d`
(Go's `(k + d) % k` divides by zero), rather than being a no-op. -/
theorem rotate_empty_panics {α : Type} (d : Int) :
    Rotate ([] : List α) d = none := rfl

theorem rotate_spec {α : Type} (l : List α) (d : Int) (hl : l ≠ [])
    (hd : -(l.length : Int) ≤ d) :
    ∃ l', Rotate l d = some l' ∧ l'.length = l.length ∧
      ∀ m : Nat, l'.get? m
        = l.get? (skewIdx 0 (Int.tmod ((l.length : Int) + d) (l.length : Int)).toNat
            (l.length - (Int.tmod ((l.length : Int) + d) (l.length : Int)).toNat) m) := by
  have hn : 0 < l.length := List.length_pos.mpr hl
  have h0 : 0 ≤ Int.tmod ((l.length : Int) + d) (l.length : Int) :=
    Int.tmod_nonneg _ (by omega)
  have h1 : Int.tmod ((l.length : Int) + d) (l.length : Int) < (l.length : Int) :=
    Int.tmod_lt_of_pos _ (by omega)
  obtain ⟨l', hrun, hlen, hpt⟩ :=
    skew_core l.length 0 (Int.tmod ((l.length : Int) + d) (l.length : Int)).toNat
      (l.length - (Int.tmod ((l.length : Int) + d) (l.length : Int)).toNat) l
      (by omega) (by omega) (by omega)
  refine ⟨l', ?_, hlen, hpt⟩
  unfold Rotate
  rw [if_neg (by omega : ¬((l.length : Int) = 0))]
  rw [show ((0 : Nat) : Int) = (0 : Int) from rfl] at hrun
  rw [show ((Int.tmod ((l.length : Int) + d) (l.length : Int)).toNat : Int)
      = Int.tmod ((l.length : Int) + d) (l.length : Int) from Int.toNat_of_nonneg h0] at hrun
  rw [show ((l.length - (Int.tmod ((l.length : Int) + d) (l.length : Int)).toNat : Nat) : Int)
      = (l.length : Int) - Int.tmod ((l.length : Int) + d) (l.length : Int) from by omega] at hrun
  exact hrun

theorem skewIdx_rot_cancel (n d1 d2 m : Nat) (h1 : d1 < n) (h2 : d2 < n)
    (hsum : d1 + d2 = 0 ∨ d1 + d2 = n) :
    skewIdx 0 d1 (n - d1) (skewIdx 0 d2 (n - d2) m) = m := by
  unfold skewIdx
  split_ifs <;> omega

theorem tmod_sum_cancel {n : Nat} (d : Int) (hn : 0 < n) (hd1 : -(n : Int) ≤ d)
    (hd2 : d ≤ (n : Int)) :
    (Int.tmod ((n : Int) + d) (n : Int)).toNat + (Int.tmod ((n : Int) + -d) (n : Int)).toNat = 0 ∨
    (Int.tmod ((n : Int) + d) (n : Int)).toNat + (Int.tmod ((n : Int) + -d) (n : Int)).toNat = n := by
  have e1 : Int.tmod ((n : Int) + d) (n : Int) = ((n : Int) + d) % (n : Int) :=
    Int.tmod_eq_emod (by omega) (by omega)
  have e2 : Int.tmod ((n : Int) + -d) (n : Int) = ((n : Int) + -d) % (n : Int) :=
    Int.tmod_eq_emod (by omega) (by omega)
  have b1 : 0 ≤ Int.tmod ((n : Int) + d) (n : Int) := Int.tmod_nonneg _ (by omega)
  have b2 : Int.tmod ((n : Int) + d) (n : Int) < (n : Int) := Int.tmod_lt_of_pos _ (by omega)
  have b3 : 0 ≤ Int.tmod ((n : Int) + -d) (n : Int) := Int.tmod_nonneg _ (by omega)
  have b4 : Int.tmod ((n : Int) + -d) (n : Int) < (n : Int) := Int.tmod_lt_of_pos _ (by omega)
  have hmod : (Int.tmod ((n : Int) + d) (n : Int) + Int.tmod ((n : Int) + -d) (n : Int))
      % (n : Int) = 0 := by
    rw [e1, e2, ← Int.add_emod,
      show ((n : Int) + d) + ((n : Int) + -d) = (n : Int) * 2 from by ring,
      Int.mul_emod_right]
  obtain ⟨c, hc⟩ := Int.dvd_of_emod_eq_zero hmod
  have hc0 : 0 ≤ c := by
    rcases Int.lt_or_le c 0 with h | h
    · nlinarith [hc]
    · exact h
  have hc2 : c < 2 := by
    rcases Int.lt_or_le c 2 with h | h
    · exact h
    · nlinarith [hc]
  interval_cases c <;> omega

/-- C2 fails as stated: rotating by `d` and then by `-d` does not restore
the order for every integer `d`.  At `l = [0, 1]` (so `n = 2`) and `d = 3`,
the first rotation succeeds (it equals rotation by `1`), but the second
call computes `(2 + -3) % 2 = -1` with Go's truncated `%`, so the
normalized amount is not in `[0, n)` and `Skew` reaches `Swap(-1, 0)`,
an index-out-of-range panic: the round trip panics instead of restoring
the original order. -/
theorem rotate_roundtrip_counterexample :
    (Rotate ([0, 1] : List Nat) 3).bind (fun l2 => Rotate l2 (-3)) = none ∧
    ¬((Rotate ([0, 1] : List Nat) 3).bind (fun l2 => Rotate l2 (-3)) = some [0, 1]) ∧
    Int.tmod ((2 : Int) + -3) 2 = -1 := by
  have h1 : Rotate ([0, 1] : List Nat) 3 = some [1, 0] := by
    show Skew ([0, 1] : List Nat) 0 1 1 = some [1, 0]
    rw [Skew]
    norm_num
    rw [skewLoop]
    norm_num
    rw [show swapL ([0, 1] : List Nat) 0 1 = some [1, 0] from by decide]
    show skewLoop ([1, 0] : List Nat) 1 1 1 = some [1, 0]
    rw [skewLoop]
    norm_num
  have h2 : Rotate ([1, 0] : List Nat) (-3) = none := by
    show Skew ([1, 0] : List Nat) 0 (-1) 3 = none
    rw [Skew]
    norm_num
    rw [Skew]
    norm_num
    rw [skewLoop]
    norm_num
    rw [show swapL ([1, 0] : List Nat) (-1) 0 = none from by decide]
  have h : (Rotate ([0, 1] : List Nat) 3).bind (fun l2 => Rotate l2 (-3)) = none := by
    rw [h1, Option.some_bind, h2]
  refine ⟨h, by rw [h]; simp, by decide⟩

/-- C2, amended: for every non-empty sequence and every integer `d` with
`-n ≤ d ≤ n`, `Rotate` normalizes `d` into `[0, n)` via `(n + d) % n` and
delegates to `Skew` with the leading `n - d` and trailing `d` elements as
the two blocks, and rotating by `d` and then by `-d` restores the original
order.  (For `d < -n` the normalized amount is negative and the call
panics, so the claim's unrestricted quantifier over `d` is false.) -/
theorem rotate_roundtrip_restricted {α : Type} (l : List α) (d : Int) (hl : l ≠ [])
    (hd1 : -(l.length : Int) ≤ d) (hd2 : d ≤ (l.length : Int)) :
    (0 ≤ Int.tmod ((l.length : Int) + d) (l.length : Int) ∧
      Int.tmod ((l.length : Int) + d) (l.length : Int) < (l.length : Int)) ∧
    Rotate l d = Skew l 0 (Int.tmod ((l.length : Int) + d) (l.length : Int))
      ((l.length : Int) - Int.tmod ((l.length : Int) + d) (l.length : Int)) ∧
    (Rotate l d).bind (fun l2 => Rotate l2 (-d)) = some l := by
  have hn : 0 < l.length := List.length_pos.mpr hl
  refine ⟨⟨Int.tmod_nonneg _ (by omega), Int.tmod_lt_of_pos _ (by omega)⟩, ?_, ?_⟩
  · unfold Rotate
    rw [if_neg (by omega : ¬((l.length : Int) = 0))]
  · obtain ⟨l1, hr1, hlen1, hpt1⟩ := rotate_spec l d hl hd1
    have hl1 : l1 ≠ [] := by
      intro h
      rw [h] at hlen1
      simp at hlen1
      omega
    obtain ⟨l2, hr2, hlen2, hpt2⟩ := rotate_spec l1 (-d) hl1 (by rw [hlen1]; omega)
    rw [hlen1] at hpt2
    rw [hr1, Option.some_bind, hr2]
    suffices hfin : l2 = l by rw [hfin]
    apply List.ext_get?
    intro m
    rw [hpt2 m, hpt1 _]
    rw [skewIdx_rot_cancel l.length (Int.tmod ((l.length : Int) + d) (l.length : Int)).toNat
      (Int.tmod ((l.length : Int) + -d) (l.length : Int)).toNat m ?h1 ?h2 ?h3]
    case h1 =>
      have := Int.tmod_lt_of_pos ((l.length : Int) + d) (show (0:Int) < l.length by omega)
      have := @Int.tmod_nonneg ((l.length : Int) + d) (l.length : Int) (by omega)
      omega
    case h2 =>
      have := Int.tmod_lt_of_pos ((l.length : Int) + -d) (show (0:Int) < l.length by omega)
      have := @Int.tmod_nonneg ((l.length : Int) + -d) (l.length : Int) (by omega)
      omega
    case h3 => exact tmod_sum_cancel d hn hd1 hd2

/-- Witness for the amended C2 at `l = [7, 8, 9]`, `d = 2`. -/
theorem rotate_roundtrip_restricted_witness :
    (0 ≤ Int.tmod ((([7, 8, 9] : List Nat).length : Int) + 2)
        (([7, 8, 9] : List Nat).length : Int) ∧
      Int.tmod ((([7, 8, 9] : List Nat).length : Int) + 2)
        (([7, 8, 9] : List Nat).length : Int) < (([7, 8, 9] : List Nat).length : Int)) ∧
    Rotate ([7, 8, 9] : List Nat) 2
      = Skew ([7, 8, 9] : List Nat) 0
          (Int.tmod ((([7, 8, 9] : List Nat).length : Int) + 2)
            (([7, 8, 9] : List Nat).length : Int))
          ((([7, 8, 9] : List Nat).length : Int) -
            Int.tmod ((([7, 8, 9] : List Nat).length : Int) + 2)
              (([7, 8, 9] : List Nat).length : Int)) ∧
    (Rotate ([7, 8, 9] : List Nat) 2).bind (fun l2 => Rotate l2 (-2)) = some [7, 8, 9] :=
  rotate_roundtrip_restricted [7, 8, 9] 2 (by decide) (by decide) (by decide)

theorem revIdx_step {n t : Nat} (ht : t < n / 2) (m : Nat) :
    (if (if t + 1 ≤ m ∧ m < n - (t + 1) then n - 1 - m else m) = n - t - 1 then t
      else if (if t + 1 ≤ m ∧ m < n - (t + 1) then n - 1 - m else m) = t then n - t - 1
      else if t + 1 ≤ m ∧ m < n - (t + 1) then n - 1 - m else m)
      = if t ≤ m ∧ m < n - t then n - 1 - m else m := by
  split_ifs <;> omega

theorem revLoop_spec {α : Type} :
    ∀ (fuel t : Nat) (l : List α), l.length / 2 - t = fuel →
      ∃ l', revLoop l l.length t = some l' ∧ l'.length = l.length ∧
        ∀ m : Nat, l'.get? m
          = l.get? (if t ≤ m ∧ m < l.length - t then l.length - 1 - m else m) := by
  intro fuel
  induction fuel with
  | zero =>
    intro t l hf
    refine ⟨l, ?_, rfl, ?_⟩
    · rw [revLoop, if_neg (by omega)]
    · intro m
      split_ifs with h1
      · congr 1
        omega
      · rfl
  | succ f ih =>
    intro t l hf
    have ht : t < l.length / 2 := by omega
    have hi : t < l.length := by omega
    have hj : l.length - t - 1 < l.length := by omega
    have hcast : ((l.length : Int) - (t : Int) - 1) = ((l.length - t - 1 : Nat) : Int) := by
      omega
    have hswap : swapL l ↑t ((l.length : Int) - (t : Int) - 1)
        = some ((l.set t (l.get ⟨l.length - t - 1, hj⟩)).set (l.length - t - 1)
            (l.get ⟨t, hi⟩)) := by
      rw [hcast]
      exact @swapL_nat_eq _ l t (l.length - t - 1) hi hj
    have hlen1 : ((l.set t (l.get ⟨l.length - t - 1, hj⟩)).set (l.length - t - 1)
        (l.get ⟨t, hi⟩)).length = l.length := by
      simp [List.length_set]
    obtain ⟨l', hrun, hl'len, hpt⟩ :=
      ih (t + 1) ((l.set t (l.get ⟨l.length - t - 1, hj⟩)).set (l.length - t - 1)
        (l.get ⟨t, hi⟩)) (by rw [hlen1]; omega)
    refine ⟨l', ?_, by rw [hl'len, hlen1], ?_⟩
    · rw [revLoop, if_pos ht, hswap]
      rw [hlen1] at hrun
      exact hrun
    · intro m
      rw [hpt m, hlen1, get?_swap_sets hi hj, revIdx_step ht m]

theorem reverse_eq {α : Type} (l : List α) : Reverse l = some l.reverse := by
  obtain ⟨l', hrun, hlen, hpt⟩ := revLoop_spec (l.length / 2 - 0) 0 l rfl
  have : l' = l.reverse := by
    apply List.ext_get?
    intro m
    rw [hpt m]
    rcases Nat.lt_or_ge m l.length with h | h
    · rw [if_pos (by omega), List.get?_reverse h]
    · have h1 : l.get? m = none := List.get?_len_le (by omega)
      have h2 : l.reverse.get? m = none := List.get?_len_le (by simpa using h)
      rw [if_neg (by omega), h1, h2]
  rw [← this]
  exact hrun

/-- C8: applying `Reverse` twice restores the original order: a single
`Reverse` produces exactly the reversed list (it swaps position `i` with
position `n-1-i` for each `i < n/2`), and `Reverse` after `Reverse`
returns the original list. -/
theorem reverse_involution {α : Type} (l : List α) :
    Reverse l = some l.reverse ∧ (Reverse l).bind Reverse = some l := by
  refine ⟨reverse_eq l, ?_⟩
  rw [reverse_eq l, Option.some_bind, reverse_eq l.reverse, List.reverse_reverse]

theorem skewLoop_perm {α : Type} :
    ∀ (l : List α) (i j k : Int) (l' : List α),
      skewLoop l i j k = some l' → l'.Perm l := by
  intro l i j k
  induction l, i, j, k using skewLoop.induct with
  | case1 data i j k hlt d hswap ih =>
    intro l' h
    rw [skewLoop, if_pos hlt, hswap] at h
    exact (ih l' h).trans (swapL_perm hswap)
  | case2 data i j k hlt hnone =>
    intro l' h
    rw [skewLoop, if_pos hlt, hnone] at h
    cases h
  | case3 data i j k hge =>
    intro l' h
    rw [skewLoop, if_neg hge] at h
    cases h
    exact List.Perm.refl _

theorem skew_perm {α : Type} :
    ∀ (l : List α) (i j k : Int) (l' : List α),
      Skew l i j k = some l' → l'.Perm l := by
  intro l i j k
  induction l, i, j, k using Skew.induct with
  | case1 data i j k hg =>
    intro l' h
    rw [Skew, if_pos hg] at h
    cases h
    exact List.Perm.refl _
  | case2 data i j k hg hneg =>
    intro l' h
    rw [Skew, if_neg hg, if_pos hneg] at h
    cases h
  | case3 data i j k hg hneg hji ih =>
    intro l' h
    rw [Skew, if_neg hg, if_neg hneg, if_pos hji] at h
    exact ih l' h
  | case4 data i j k hg hneg hji hb1 d heq ih1 ih2 =>
    intro l' h
    rw [Skew, if_neg hg, if_neg hneg, if_neg hji, if_pos hb1, heq] at h
    exact (ih2 l' h).trans (ih1 d heq)
  | case5 data i j k hg hneg hji hb1 heq ih1 =>
    intro l' h
    rw [Skew, if_neg hg, if_neg hneg, if_neg hji, if_pos hb1, heq] at h
    cases h
  | case6 data i j k hg hneg hji hb1 hb2 d heq ih1 ih2 =>
    intro l' h
    rw [Skew, if_neg hg, if_neg hneg, if_neg hji, if_neg hb1, if_pos hb2, heq] at h
    exact (ih2 l' h).trans (ih1 d heq)
  | case7 data i j k hg hneg hji hb1 hb2 heq ih1 =>
    intro l' h
    rw [Skew, if_neg hg, if_neg hneg, if_neg hji, if_neg hb1, if_pos hb2, heq] at h
    cases h
  | case8 data i j k hg hneg hji hb1 hb2 =>
    intro l' h
    rw [Skew, if_neg hg, if_neg hneg, if_neg hji, if_neg hb1, if_neg hb2] at h
    exact skewLoop_perm data i j k l' h

theorem revLoop_perm {α : Type} :
    ∀ (l : List α) (n i : Nat) (l' : List α),
      revLoop l n i = some l' → l'.Perm l := by
  intro l n i
  induction l, n, i using revLoop.induct with
  | case1 data n i hlt d hswap ih =>
    intro l' h
    rw [revLoop, if_pos hlt, hswap] at h
    exact (ih l' h).trans (swapL_perm hswap)
  | case2 data n i hlt hnone =>
    intro l' h
    rw [revLoop, if_pos hlt, hnone] at h
    cases h
  | case3 data n i hge =>
    intro l' h
    rw [revLoop, if_neg hge] at h
    cases h
    exact List.Perm.refl _

theorem shuffleGo_perm {α : Type} :
    ∀ (p : List Int) (l : List α) (i : Nat) (l' : List α),
      shuffleGo l i p = some l' → l'.Perm l := by
  intro p
  induction p with
  | nil =>
    intro l i l' h
    rw [shuffleGo] at h
    cases h
    exact List.Perm.refl _
  | cons j rest ih =>
    intro l i l' h
    rw [shuffleGo] at h
    rcases hsw : swapL l i j with _ | d
    · rw [hsw] at h
      cases h
    · rw [hsw] at h
      exact (ih d (i + 1) l' h).trans (swapL_perm hsw)

/-- C9: every positional transform (`Reverse`, `Rotate`, `Skew`,
`Shuffle`) mutates the sequence only through pairwise swaps, so on every
input on which it returns normally the result is a permutation of the
original list — the multiset of elements is exactly preserved. -/
theorem transforms_permute {α : Type} (l out : List α) :
    (Reverse l = some out ∨ (∃ d, Rotate l d = some out) ∨
      (∃ i j k, Skew l i j k = some out) ∨ (∃ p, Shuffle l p = some out)) →
    out.Perm l := by
  intro h
  rcases h with h | ⟨d, h⟩ | ⟨i, j, k, h⟩ | ⟨p, h⟩
  · exact revLoop_perm l l.length 0 out h
  · unfold Rotate at h
    split at h
    · cases h
    · exact skew_perm l _ _ _ out h
  · exact skew_perm l i j k out h
  · exact shuffleGo_perm p l 0 out h

/-- Witness for C9: the skew `(i, j, k) = (0, 1, 1)` on `[5, 6]` returns
`[6, 5]`, a permutation of the input. -/
theorem transforms_permute_witness : ([6, 5] : List Nat).Perm [5, 6] :=
  transforms_permute [5, 6] [6, 5]
    (Or.inr (Or.inr (Or.inl ⟨0, 1, 1, by
      show Skew ([5, 6] : List Nat) 0 1 1 = some [6, 5]
      rw [Skew]
      norm_num
      rw [skewLoop]
      norm_num
      rw [show swapL ([5, 6] : List Nat) 0 1 = some [6, 5] from by decide]
      show skewLoop ([6, 5] : List Nat) 1 1 1 = some [6, 5]
      rw [skewLoop]
      norm_num⟩)))

/-- C4: for every base sequence and every index pair, the inverted view's
`Less(i, j)` returns the negation of the base's `Less(i, j)`, while its
`Len` and `Swap` delegate to the base unchanged (the promoted methods of
the embedded `sort.Interface`). -/
theorem rev_view_delegation {σ : Type u} (ops : SeqOps σ) (s : SI σ) (i j : Int) :
    (SI.rev s).LessI ops i j = !(s.LessI ops i j) ∧
    (SI.rev s).LenI ops = s.LenI ops ∧
    (SI.rev s).SwapI ops i j = SI.rev (s.SwapI ops i j) :=
  ⟨rfl, rfl, rfl⟩

theorem foldl_append_events {σ : Type u} (i j : Int) :
    ∀ (ds : List σ) (acc : List (σ × Int × Int)),
      ds.foldl (fun acc x => acc ++ [(x, i, j)]) acc = acc ++ ds.map (fun x => (x, i, j)) := by
  intro ds
  induction ds with
  | nil => intro acc; simp
  | cons x rest ih =>
    intro acc
    rw [List.foldl_cons, ih (acc ++ [(x, i, j)]), List.map_cons]
    simp

/-- C6: every `Swap(i, j)` on a mirrored view performs the swap on the
primary first and then the identical `(i, j)` swap on each secondary in
the order they were supplied at construction: the shared instrumentation
trace of one `proxy.Swap` call is exactly the primary's event followed by
one event per secondary, in list order, all with the same `(i, j)`. -/
theorem proxy_swap_order {σ : Type u} (p : Proxy σ) (i j : Int)
    (w : List (σ × Int × Int)) :
    Proxy.SwapTrace p i j w = w ++ (p.c, i, j) :: p.d.map (fun x => (x, i, j)) := by
  unfold Proxy.SwapTrace Proxy.SwapGen
  rw [foldl_append_events i j p.d (w ++ [(p.c, i, j)])]
  simp

/-- C5: constructing a sub-range view of a sub-range view through `NewSub`
yields a single flat view (`sub` nesting depth stays at most one), and the
doubly-constructed view is the very value a single `sub` view with the
composed offset and count would be, so every `Len`, `Less` and `Swap`
operation on it gives identical results to that single view. -/
theorem sub_sub_flattens {σ : Type u} (ops : SeqOps σ) (s : SI σ) (i1 j1 i2 j2 : Int)
    (v w : SI σ) (hdepth : s.subDepth ≤ 1) (h1 : NewSub ops s i1 j1 = some v)
    (h2 : NewSub ops v i2 j2 = some w) :
    w.subDepth ≤ 1 ∧
    ∃ u off, v = SI.sub u off (j1 - i1) ∧ w = SI.sub u (off + i2) (j2 - i2) ∧
      w.LenI ops = (SI.sub u (off + i2) (j2 - i2)).LenI ops ∧
      ∀ a b : Int, w.LessI ops a b = (SI.sub u (off + i2) (j2 - i2)).LessI ops a b ∧
        w.SwapI ops a b = (SI.sub u (off + i2) (j2 - i2)).SwapI ops a b := by
  unfold NewSub at h1
  split at h1
  · simp at h1
  · cases s with
    | base s0 =>
      cases h1
      unfold NewSub at h2
      split at h2
      · simp at h2
      · cases h2
        refine ⟨by simp [SI.subDepth], SI.base s0, i1, rfl, rfl, rfl, fun a b => ⟨rfl, rfl⟩⟩
    | sub u o n =>
      cases h1
      have hu : u.subDepth = 0 := by
        simp [SI.subDepth] at hdepth
        omega
      unfold NewSub at h2
      split at h2
      · simp at h2
      · cases h2
        refine ⟨by simp [SI.subDepth]; omega, u, o + i1, rfl, ?_, rfl, fun a b => ⟨rfl, rfl⟩⟩
        rw [add_assoc]
    | rev r =>
      cases h1
      unfold NewSub at h2
      split at h2
      · simp at h2
      · cases h2
        refine ⟨by simp [SI.subDepth], SI.rev r, i1, rfl, rfl, rfl, fun a b => ⟨rfl, rfl⟩⟩

/-- Witness for C5: `Unit` base of length 10, first view `[2:8)`, second
view `[1:4)` of it; the result is the flat view with offset 3, count 3. -/
theorem sub_sub_flattens_witness :
    (SI.base ()).subDepth ≤ 1 ∧
    ((SI.sub (SI.base ()) 3 3 : SI Unit).subDepth ≤ 1 ∧
      ∃ u off, (SI.sub (SI.base ()) 2 6 : SI Unit) = SI.sub u off (8 - 2) ∧
        (SI.sub (SI.base ()) 3 3 : SI Unit) = SI.sub u (off + 1) (4 - 1) ∧
        (SI.sub (SI.base ()) 3 3 : SI Unit).LenI demoOps
          = (SI.sub u (off + 1) (4 - 1)).LenI demoOps ∧
        ∀ a b : Int,
          (SI.sub (SI.base ()) 3 3 : SI Unit).LessI demoOps a b
            = (SI.sub u (off + 1) (4 - 1)).LessI demoOps a b ∧
          (SI.sub (SI.base ()) 3 3 : SI Unit).SwapI demoOps a b
            = (SI.sub u (off + 1) (4 - 1)).SwapI demoOps a b) :=
  ⟨by simp [SI.subDepth],
    sub_sub_flattens demoOps (SI.base ()) 2 8 1 4 (SI.sub (SI.base ()) 2 6)
      (SI.sub (SI.base ()) 3 3) (by simp [SI.subDepth]) rfl rfl⟩

/-- C7: `NewSub` fails (panics, `none`) exactly when `i < 0`, `j < i`
(negative count) or `j` exceeds the base length, and on success the view
carries exactly the requested count, never a clamped or corrected one;
`NewProxy` fails exactly when some secondary's length differs from the
primary's, and on success returns the primary and secondaries unchanged.
The constructors build values only — no `Swap` is applied to any wrapped
sequence by construction, so on failure no swap has happened. -/
theorem constructor_bounds_panic {σ : Type u} (ops : SeqOps σ) (s : SI σ) (i j : Int)
    (comp : σ) (ds : List σ) :
    (NewSub ops s i j = none ↔ (i < 0 ∨ j < i ∨ j > s.LenI ops)) ∧
    (∀ v, NewSub ops s i j = some v → v.LenI ops = j - i) ∧
    (NewProxy ops comp ds = none ↔ ∃ d ∈ ds, ops.len comp ≠ ops.len d) ∧
    (∀ pr, NewProxy ops comp ds = some pr → pr = ⟨comp, ds⟩) := by
  refine ⟨?_, ?_, ?_, ?_⟩
  · unfold NewSub
    split
    case isTrue h => simpa using h
    case isFalse h =>
      cases s <;> simpa using h
  · intro v hv
    unfold NewSub at hv
    split at hv
    · simp at hv
    · cases s
      · cases hv; rfl
      · cases hv; rfl
      · cases hv; rfl
  · unfold NewProxy
    split
    case isTrue h =>
      rw [List.all_eq_true] at h
      simp only [beq_iff_eq] at h
      constructor
      · intro hc
        simp at hc
      · rintro ⟨d, hd, hne⟩
        exact absurd (h d hd) hne
    case isFalse h =>
      have h2 : ∃ d ∈ ds, ops.len comp ≠ ops.len d := by
        by_contra hc
        push_neg at hc
        apply h
        rw [List.all_eq_true]
        intro x hx
        rw [beq_iff_eq]
        exact hc x hx
      exact ⟨fun _ => h2, fun _ => rfl⟩
  · intro pr hpr
    unfold NewProxy at hpr
    split at hpr
    · cases hpr; rfl
    · simp at hpr

/-- Witness for C7: an out-of-range sub view (`i = -1`) and a mirrored
view whose secondary `3` has a different length than the primary `5` both
fail with a panic. -/
theorem constructor_bounds_panic_witness :
    NewSub demoOps (SI.base ()) (-1) 2 = none ∧
    NewProxy idLenOps 5 [5, 3] = none :=
  ⟨(constructor_bounds_panic demoOps (SI.base ()) (-1) 2 () []).1.mpr
      (Or.inl (by decide)),
    (constructor_bounds_panic idLenOps (SI.base 0) 0 0 5 [5, 3]).2.2.1.mpr
      ⟨3, by decide, by decide⟩⟩

end Sortutil
